import Mathlib

/-!
Shallow embedding of `recon_error_kpca.py` (class `KPCA_Recon_Error`):
anomaly detection by kernel-PCA reconstruction error.

Matrices are lists of rows of reals.  The two external collaborators are
modelled as follows, and never reimplemented:

* sklearn `StandardScaler().fit_transform` (line 33 of the source) is
  modelled from its documented semantics: per-column centering by the mean
  and division by the population standard deviation, where a zero standard
  deviation is replaced by 1 (`_handle_zeros_in_scale`).
* sklearn `KernelPCA` is the external kernel-decomposition engine: its
  eigenvalue output (`transformer.lambdas_`, line 46) enters as a list
  `lambdas`, and its rank-k reconstruction
  (`transformer.inverse_transform(transformer.fit_transform(m))`, lines
  54-55) enters as a function `recon : ℕ → Mat` giving the reconstruction
  produced with `n_components = k`.
* `np.random.choice(range(cols_num), size=2, replace=False)` (line 83)
  enters as a pair `draw : ℕ × ℕ`; the call itself raises whenever the
  population has fewer than 2 elements, which is reflected in
  `reconstruct_matrix`.  Theorems quantify over valid draws.
* `np.argsort(-scores)` (line 108) enters as a list `perm`; theorems that
  depend on it assume only what numpy documents: it is a permutation of
  `0..n-1` arranging the scores in descending order.

Python exceptions are modelled with `Except String`.
-/

namespace KPCAReconError

/-- A real matrix as a list of rows. -/
abbrev Mat : Type := List (List ℝ)

/-- Number of columns of a matrix (`matrix.shape[1]` for a nonempty matrix). -/
def numCols (X : Mat) : ℕ := (X.headD []).length

/-- Mean of column `j` (entries read with `getD`, default 0). -/
noncomputable def colMean (X : Mat) (j : ℕ) : ℝ :=
  (X.map (fun r => r.getD j 0)).sum / (X.length : ℝ)

/-- Population variance of column `j`, as used by sklearn `StandardScaler`
(`ddof = 0`). -/
noncomputable def colVar (X : Mat) (j : ℕ) : ℝ :=
  (X.map (fun r => (r.getD j 0 - colMean X j) ^ 2)).sum / (X.length : ℝ)

/-- Standard deviation of column `j`. -/
noncomputable def colStd (X : Mat) (j : ℕ) : ℝ := Real.sqrt (colVar X j)

/-- Scale used by sklearn `StandardScaler`: a zero standard deviation is
replaced by 1 (`_handle_zeros_in_scale`), so constant columns are centered
but not divided by zero. -/
noncomputable def colScale (X : Mat) (j : ℕ) : ℝ :=
  if colStd X j = 0 then 1 else colStd X j

/-- Modelled from the spec: the external preprocessing collaborator,
sklearn `StandardScaler().fit_transform(matrix)` from line 33 of the
source (`self.matrix = StandardScaler().fit_transform(matrix)`), per its
documented semantics: each entry is centered by its column mean and
divided by `colScale`. -/
noncomputable def standardize (X : Mat) : Mat :=
  X.map (fun r => (List.range r.length).map
    (fun j => (r.getD j 0 - colMean X j) / colScale X j))

/-- `get_ev_ratio` (lines 40-47): `np.cumsum(transformer.lambdas_) /
np.sum(transformer.lambdas_)`, applied to the eigenvalue list `lambdas`
returned by the external full-rank decomposition. -/
noncomputable def get_ev_ratio (lambdas : List ℝ) : List ℝ :=
  (List.range lambdas.length).map
    (fun k => ((lambdas.take (k + 1)).sum) / lambdas.sum)

/-- The list `[reconstruct 1, ..., reconstruct cols_num]` built by the loop
in `reconstruct_matrix` (lines 63-80; the `verbose` branch only prints and
appends the same elements in the same order). -/
def reconSeries (recon : ℕ → Mat) (colsNum : ℕ) : List Mat :=
  (List.range colsNum).map (fun i => recon (i + 1))

/-- `reconstruct_matrix` (lines 49-86).  The final sanity check draws two
distinct indices `draw` from `range cols_num` (line 83: `np.random.choice`,
which itself raises `ValueError` when `cols_num < 2`) and asserts that the
two selected reconstruction matrices are not elementwise equal (line 85). -/
noncomputable def reconstruct_matrix (recon : ℕ → Mat) (colsNum : ℕ)
    (draw : ℕ × ℕ) : Except String (List Mat) :=
  if colsNum < 2 then
    .error "ValueError: Cannot take a larger sample than population"
  else if (reconSeries recon colsNum).getD draw.1 [] =
      (reconSeries recon colsNum).getD draw.2 [] then
    .error "AssertionError: the selected reconstruction matrices coincide"
  else
    .ok (reconSeries recon colsNum)

/-- `compute_vector_length` (lines 90-92): Euclidean norm of a row,
`np.sqrt(np.square(vector).sum())`. -/
noncomputable def compute_vector_length (v : List ℝ) : ℝ :=
  Real.sqrt ((v.map (fun x => x ^ 2)).sum)

/-- `compute_sub_score` (lines 95-98): per-row norms of `self.matrix -
recon_matrix`, each multiplied by the weight `ev`. -/
noncomputable def compute_sub_score (X m : Mat) (ev : ℝ) : List ℝ :=
  (List.zipWith
    (fun r s => compute_vector_length (List.zipWith (fun a b => a - b) r s))
    X m).map (fun t => t * ev)

/-- `np.sum(anomaly_scores, axis=0)` (line 104): elementwise sum of a list
of equally long vectors. -/
noncomputable def sumVecs : List (List ℝ) → List ℝ
  | [] => []
  | [v] => v
  | v :: w :: rest => List.zipWith (fun a b => a + b) v (sumVecs (w :: rest))

/-- `get_anomaly_score` (lines 88-104) over the stored (standardized)
matrix `X`: pairs the reconstruction series with `get_ev_ratio lambdas`
(Python `map` over two lists truncates at the shorter one, as `zipWith`
does) and sums the weighted norm vectors elementwise. -/
noncomputable def get_anomaly_score (X : Mat) (lambdas : List ℝ)
    (recon : ℕ → Mat) (draw : ℕ × ℕ) : Except String (List ℝ) :=
  match reconstruct_matrix recon (numCols X) draw with
  | .error e => .error e
  | .ok ms =>
      .ok (sumVecs (List.zipWith (fun m ev => compute_sub_score X m ev)
        ms (get_ev_ratio lambdas)))

/-- Python slicing `l[:k]` for an `int` bound `k`, as used on line 110
(`indices_desc[:anomaly_num]`): a negative bound counts from the end. -/
def pySlice {α : Type} (l : List α) (k : ℤ) : List α :=
  if k < 0 then l.take ((l.length : ℤ) + k).toNat else l.take k.toNat

/-- `get_anomaly_indices` (lines 107-111) given the output `perm` of
`np.argsort(-scores)`: `anomaly_num = int(np.ceil(len(self.matrix) *
self.contamination))`, then the first `anomaly_num` indices. -/
noncomputable def get_anomaly_indices (perm : List ℕ) (n : ℕ) (c : ℝ) :
    List ℕ :=
  pySlice perm ⌈(n : ℝ) * c⌉

/-- `np.isin(range(len(self.matrix)), anomaly_indices).astype(int)`
(line 116). -/
def predict_labels (n : ℕ) (idxs : List ℕ) : List ℕ :=
  (List.range n).map (fun i => if i ∈ idxs then 1 else 0)

/-- `predict` (lines 114-117) over the stored matrix `X`: the anomaly
indices of the score vector (through the argsort output `perm`) turned
into 0/1 labels. -/
noncomputable def predict (X : Mat) (lambdas : List ℝ) (recon : ℕ → Mat)
    (draw : ℕ × ℕ) (perm : List ℕ) (c : ℝ) : Except String (List ℕ) :=
  match get_anomaly_score X lambdas recon draw with
  | .error e => .error e
  | .ok _scores => .ok (predict_labels X.length (get_anomaly_indices perm X.length c))

/-- The score pipeline from the raw input matrix: `__init__` standardizes
(line 33), then `get_anomaly_score` runs on the stored matrix. -/
noncomputable def score_pipeline (raw : Mat) (lambdas : List ℝ)
    (recon : ℕ → Mat) (draw : ℕ × ℕ) : Except String (List ℝ) :=
  get_anomaly_score (standardize raw) lambdas recon draw

/-- The predict pipeline from the raw input matrix. -/
noncomputable def predict_pipeline (raw : Mat) (lambdas : List ℝ)
    (recon : ℕ → Mat) (draw : ℕ × ℕ) (perm : List ℕ) (c : ℝ) :
    Except String (List ℕ) :=
  predict (standardize raw) lambdas recon draw perm c

/-- What numpy documents about `perm = np.argsort(-scores)`: a permutation
of `0..n-1` along which the scores are non-increasing.  (The tie order
among equal scores is not part of the documented contract of the default
`quicksort` kind.) -/
def IsArgsortDesc (scores : List ℝ) (perm : List ℕ) : Prop :=
  List.Perm perm (List.range scores.length) ∧
    List.Pairwise (fun i j => scores.getD j 0 ≤ scores.getD i 0) perm

/-- Concrete 2x2 input matrix used by the witnesses: both columns have
mean 1 and standard deviation 1. -/
noncomputable def exRaw : Mat := [[0, 0], [2, 2]]

/-- Concrete eigenvalue spectrum used by the witnesses. -/
noncomputable def exLam : List ℝ := [1, 1]

/-- Concrete reconstruction collaborator used by the witnesses: the rank-1
reconstruction differs from the standardized matrix in one entry, the
rank-2 reconstruction is exact. -/
noncomputable def exRecon : ℕ → Mat :=
  fun k => if k = 1 then [[0, -1], [1, 1]] else [[-1, -1], [1, 1]]

end KPCAReconError

namespace KPCAReconError

lemma length_standardize (X : Mat) : (standardize X).length = X.length := by
  simp [standardize]

lemma numCols_standardize (X : Mat) : numCols (standardize X) = numCols X := by
  cases X with
  | nil => simp [standardize, numCols]
  | cons r rest => simp [standardize, numCols]

lemma length_get_ev_ratio (lambdas : List ℝ) :
    (get_ev_ratio lambdas).length = lambdas.length := by
  simp [get_ev_ratio]

lemma length_reconSeries (recon : ℕ → Mat) (d : ℕ) :
    (reconSeries recon d).length = d := by
  simp [reconSeries]

lemma get_ev_ratio_getD (lambdas : List ℝ) {k : ℕ} (hk : k < lambdas.length) :
    (get_ev_ratio lambdas).getD k 0 = (lambdas.take (k + 1)).sum / lambdas.sum := by
  have hk' : k < (get_ev_ratio lambdas).length := by
    rw [length_get_ev_ratio]; exact hk
  rw [List.getD_eq_getElem _ _ hk']
  simp [get_ev_ratio]

lemma reconSeries_getD (recon : ℕ → Mat) (d : ℕ) {k : ℕ} (hk : k < d) :
    (reconSeries recon d).getD k [] = recon (k + 1) := by
  have hk' : k < (reconSeries recon d).length := by
    rw [length_reconSeries]; exact hk
  rw [List.getD_eq_getElem _ _ hk']
  simp [reconSeries]

lemma sum_take_le_sum (l : List ℝ) (m : ℕ) (h : ∀ x ∈ l, 0 ≤ x) :
    (l.take m).sum ≤ l.sum := by
  calc (l.take m).sum ≤ (l.take m).sum + (l.drop m).sum := by
        have : 0 ≤ (l.drop m).sum :=
          List.sum_nonneg fun x hx => h x (List.mem_of_mem_drop hx)
        linarith
    _ = l.sum := by rw [← List.sum_append, List.take_append_drop]

lemma sum_take_mono (l : List ℝ) (h : ∀ x ∈ l, 0 ≤ x) {a b : ℕ} (hab : a ≤ b) :
    (l.take a).sum ≤ (l.take b).sum := by
  have heq : l.take a = (l.take b).take a := by
    rw [List.take_take, min_eq_left hab]
  rw [heq]
  exact sum_take_le_sum (l.take b) a fun x hx => h x (List.mem_of_mem_take hx)

lemma sumVecs_length {L : ℕ} (vs : List (List ℝ)) (hne : vs ≠ [])
    (hL : ∀ v ∈ vs, v.length = L) : (sumVecs vs).length = L := by
  induction vs with
  | nil => exact absurd rfl hne
  | cons v rest ih =>
    cases rest with
    | nil => simpa [sumVecs] using hL v (by simp)
    | cons w tail =>
      have h1 : (sumVecs (w :: tail)).length = L :=
        ih (by simp) fun u hu => hL u (List.mem_cons_of_mem v hu)
      simp [sumVecs, List.length_zipWith, h1, hL v (List.mem_cons_self _ _)]

lemma sumVecs_getD {L i : ℕ} (hi : i < L) (vs : List (List ℝ)) (hne : vs ≠ [])
    (hL : ∀ v ∈ vs, v.length = L) :
    (sumVecs vs).getD i 0 = (vs.map (fun v => v.getD i 0)).sum := by
  induction vs with
  | nil => exact absurd rfl hne
  | cons v rest ih =>
    cases rest with
    | nil => simp [sumVecs]
    | cons w tail =>
      have htail : ∀ u ∈ w :: tail, u.length = L :=
        fun u hu => hL u (List.mem_cons_of_mem v hu)
      have hrec := ih (by simp) htail
      have hlen : (sumVecs (w :: tail)).length = L :=
        sumVecs_length _ (by simp) htail
      have hv : v.length = L := hL v (List.mem_cons_self _ _)
      have hilen : i < (List.zipWith (fun a b => a + b) v
          (sumVecs (w :: tail))).length := by
        simp only [List.length_zipWith, hv, hlen, min_self]
        exact hi
      show (List.zipWith (fun a b => a + b) v (sumVecs (w :: tail))).getD i 0 = _
      rw [List.getD_eq_getElem _ _ hilen]
      simp only [List.getElem_zipWith]
      rw [List.map_cons, List.sum_cons, ← hrec]
      rw [List.getD_eq_getElem _ _ (show i < v.length by omega)]
      rw [List.getD_eq_getElem _ _ (show i < (sumVecs (w :: tail)).length by omega)]

lemma zipWith_add_nonneg (v : List ℝ) :
    ∀ (w : List ℝ), (∀ x ∈ v, 0 ≤ x) → (∀ x ∈ w, 0 ≤ x) →
      ∀ x ∈ List.zipWith (fun a b => a + b) v w, 0 ≤ x := by
  induction v with
  | nil => intro w _ _ x hx; simp at hx
  | cons a v ih =>
    intro w hv hw x hx
    cases w with
    | nil => simp at hx
    | cons b w =>
      rcases List.mem_cons.mp hx with h | h
      · subst h
        exact add_nonneg (hv a (List.mem_cons_self _ _)) (hw b (List.mem_cons_self _ _))
      · exact ih w (fun y hy => hv y (List.mem_cons_of_mem a hy))
          (fun y hy => hw y (List.mem_cons_of_mem b hy)) x h

lemma sumVecs_nonneg (vs : List (List ℝ))
    (h : ∀ v ∈ vs, ∀ x ∈ v, 0 ≤ x) : ∀ x ∈ sumVecs vs, 0 ≤ x := by
  induction vs with
  | nil => intro x hx; simp [sumVecs] at hx
  | cons v rest ih =>
    cases rest with
    | nil => simpa [sumVecs] using h v (List.mem_cons_self _ _)
    | cons w tail =>
      exact zipWith_add_nonneg v _ (h v (List.mem_cons_self _ _))
        (ih fun u hu => h u (List.mem_cons_of_mem v hu))

lemma head_pos_of_sorted (a : ℝ) (rest : List ℝ)
    (hnn : ∀ x ∈ a :: rest, 0 ≤ x) (hsorted : (a :: rest).Sorted (· ≥ ·))
    (hsum : 0 < (a :: rest).sum) : 0 < a := by
  by_contra hcon
  push_neg at hcon
  have ha : a = 0 := le_antisymm hcon (hnn a (List.mem_cons_self _ _))
  have hz : ∀ x ∈ rest, x = 0 := by
    intro x hx
    have h1 : a ≥ x := List.rel_of_sorted_cons hsorted x hx
    have h2 : 0 ≤ x := hnn x (List.mem_cons_of_mem a hx)
    linarith [ha ▸ h1]
  have hr : rest.sum = 0 := List.sum_eq_zero hz
  rw [List.sum_cons, ha, hr] at hsum
  exact lt_irrefl 0 (by linarith)

end KPCAReconError

namespace KPCAReconError

lemma mem_get_ev_ratio (lambdas : List ℝ) {x : ℝ}
    (hx : x ∈ get_ev_ratio lambdas) :
    ∃ k, k < lambdas.length ∧ x = (lambdas.take (k + 1)).sum / lambdas.sum := by
  simp only [get_ev_ratio, List.mem_map, List.mem_range] at hx
  obtain ⟨k, hk, hkx⟩ := hx
  exact ⟨k, hk, hkx.symm⟩

lemma take_sum_pos (lambdas : List ℝ) (k : ℕ)
    (hnn : ∀ x ∈ lambdas, 0 ≤ x) (hsorted : lambdas.Sorted (· ≥ ·))
    (hsum : 0 < lambdas.sum) : 0 < (lambdas.take (k + 1)).sum := by
  cases lambdas with
  | nil => simp at hsum
  | cons a rest =>
    have ha : 0 < a := head_pos_of_sorted a rest hnn hsorted hsum
    have hr : 0 ≤ (rest.take k).sum :=
      List.sum_nonneg fun x hx =>
        hnn x (List.mem_cons_of_mem a (List.mem_of_mem_take hx))
    simp only [List.take_succ_cons, List.sum_cons]
    linarith

/-- C2: for eigenvalue spectra satisfying the collaborator contract of the
spec (length d, nonnegative, descending, positive total), the cumulative
variance-ratio sequence of `get_ev_ratio` has length d, all its values lie
in (0, 1], it is monotonically non-decreasing, and its last element (index
d - 1) equals 1. -/
theorem C2_ev_ratio_cumulative (lambdas : List ℝ) (d : ℕ)
    (hlen : lambdas.length = d)
    (hnn : ∀ x ∈ lambdas, 0 ≤ x)
    (hsorted : lambdas.Sorted (· ≥ ·))
    (hsum : 0 < lambdas.sum) :
    (get_ev_ratio lambdas).length = d ∧
    (∀ x ∈ get_ev_ratio lambdas, 0 < x ∧ x ≤ 1) ∧
    (∀ a b : ℕ, a ≤ b → b < d →
      (get_ev_ratio lambdas).getD a 0 ≤ (get_ev_ratio lambdas).getD b 0) ∧
    (get_ev_ratio lambdas).getD (d - 1) 0 = 1 := by
  have hlen' : (get_ev_ratio lambdas).length = d := by
    rw [length_get_ev_ratio, hlen]
  have hd1 : 1 ≤ d := by
    rcases Nat.eq_zero_or_pos d with h0 | h1
    · exfalso
      have : lambdas = [] := List.eq_nil_of_length_eq_zero (by omega)
      rw [this] at hsum
      simp at hsum
    · exact h1
  refine ⟨hlen', ?_, ?_, ?_⟩
  · intro x hx
    obtain ⟨k, hk, hkx⟩ := mem_get_ev_ratio lambdas hx
    subst hkx
    constructor
    · exact div_pos (take_sum_pos lambdas k hnn hsorted hsum) hsum
    · rw [div_le_one hsum]
      exact sum_take_le_sum lambdas (k + 1) hnn
  · intro a b hab hbd
    rw [get_ev_ratio_getD lambdas (by omega), get_ev_ratio_getD lambdas (by omega)]
    have := sum_take_mono lambdas hnn (show a + 1 ≤ b + 1 by omega)
    exact div_le_div_of_nonneg_right this (le_of_lt hsum)
  · rw [get_ev_ratio_getD lambdas (by omega)]
    have : d - 1 + 1 = lambdas.length := by omega
    rw [this, List.take_length]
    exact div_self (ne_of_gt hsum)

end KPCAReconError


namespace KPCAReconError

/-- Witness for C2 at the concrete spectrum `[3, 1]`. -/
theorem C2_ev_ratio_cumulative_witness :
    (get_ev_ratio [3, 1]).length = 2 ∧
    (∀ x ∈ get_ev_ratio [3, 1], 0 < x ∧ x ≤ 1) ∧
    (∀ a b : ℕ, a ≤ b → b < 2 →
      (get_ev_ratio [3, 1]).getD a 0 ≤ (get_ev_ratio [3, 1]).getD b 0) ∧
    (get_ev_ratio [3, 1]).getD (2 - 1) 0 = 1 :=
  C2_ev_ratio_cumulative [3, 1] 2 (by norm_num)
    (by intro x hx; simp at hx; rcases hx with rfl | rfl <;> norm_num)
    (by norm_num [List.sorted_cons])
    (by norm_num)

lemma reconstruct_matrix_ok {recon : ℕ → Mat} {d : ℕ} {draw : ℕ × ℕ}
    {ms : List Mat} (h : reconstruct_matrix recon d draw = .ok ms) :
    ms = reconSeries recon d ∧ 2 ≤ d := by
  unfold reconstruct_matrix at h
  by_cases hd : d < 2
  · rw [if_pos hd] at h
    exact absurd h (by simp)
  · rw [if_neg hd] at h
    by_cases heq : (reconSeries recon d).getD draw.1 [] =
        (reconSeries recon d).getD draw.2 []
    · rw [if_pos heq] at h
      exact absurd h (by simp)
    · rw [if_neg heq] at h
      exact ⟨(Except.ok.inj h).symm, by omega⟩

/-- C5 (amended): the sanity check of `reconstruct_matrix` raises exactly
when the two randomly drawn matrices coincide elementwise (for a valid
column count d ≥ 2); in particular it raises whenever all d matrices are
pairwise equal, but it may also raise when the drawn pair happens to be
equal even though two other matrices in the series differ. -/
theorem C5_degenerate_check (recon : ℕ → Mat) (d i j : ℕ)
    (hd : 2 ≤ d) (hi : i < d) (hj : j < d) :
    (reconstruct_matrix recon d (i, j) = .ok (reconSeries recon d) ↔
      (reconSeries recon d).getD i [] ≠ (reconSeries recon d).getD j []) ∧
    ((∀ a b : ℕ, a < d → b < d →
        (reconSeries recon d).getD a [] = (reconSeries recon d).getD b []) →
      ∃ e, reconstruct_matrix recon d (i, j) = .error e) := by
  have hnd : ¬ d < 2 := by omega
  unfold reconstruct_matrix
  rw [if_neg hnd]
  by_cases heq : (reconSeries recon d).getD i [] = (reconSeries recon d).getD j []
  · rw [if_pos heq]
    refine ⟨⟨fun hok => absurd hok (by simp), fun hne => absurd heq hne⟩,
      fun _ => ⟨_, rfl⟩⟩
  · rw [if_neg heq]
    exact ⟨⟨fun _ => heq, fun _ => rfl⟩,
      fun hall => absurd (hall i j hi hj) heq⟩

/-- Witness for the amended C5 theorem at a concrete three-matrix series. -/
theorem C5_degenerate_check_witness :
    (reconstruct_matrix (fun k => if k = 3 then [[1]] else [[0]]) 3 (0, 1) =
        .ok (reconSeries (fun k => if k = 3 then [[1]] else [[0]]) 3) ↔
      (reconSeries (fun k => if k = 3 then [[1]] else [[0]]) 3).getD 0 [] ≠
        (reconSeries (fun k => if k = 3 then [[1]] else [[0]]) 3).getD 1 []) ∧
    ((∀ a b : ℕ, a < 3 → b < 3 →
        (reconSeries (fun k => if k = 3 then [[1]] else [[0]]) 3).getD a [] =
          (reconSeries (fun k => if k = 3 then [[1]] else [[0]]) 3).getD b []) →
      ∃ e, reconstruct_matrix (fun k => if k = 3 then [[1]] else [[0]]) 3 (0, 1) =
        .error e) :=
  C5_degenerate_check (fun k => if k = 3 then [[1]] else [[0]]) 3 0 1
    (by norm_num) (by norm_num) (by norm_num)

/-- Counterexample to C5 as stated: in the three-matrix series
`[[[0]], [[0]], [[1]]]` two matrices differ, yet the draw (0, 1) selects
the two equal ones and `reconstruct_matrix` raises anyway. -/
theorem C5_counterexample :
    (∃ a b : ℕ, a < 3 ∧ b < 3 ∧
      (reconSeries (fun k => if k = 3 then [[1]] else [[0]]) 3).getD a [] ≠
        (reconSeries (fun k => if k = 3 then [[1]] else [[0]]) 3).getD b []) ∧
    ∃ e, reconstruct_matrix (fun k => if k = 3 then [[1]] else [[0]]) 3 (0, 1) =
      .error e := by
  have hseries : reconSeries (fun k => if k = 3 then [[1]] else [[0]]) 3 =
      [[[0]], [[0]], [[(1 : ℝ)]]] := by
    simp [reconSeries, List.range_succ]
  constructor
  · refine ⟨0, 2, by norm_num, by norm_num, ?_⟩
    rw [hseries]
    intro hcon
    norm_num [List.getD] at hcon
  · refine ⟨"AssertionError: the selected reconstruction matrices coincide", ?_⟩
    unfold reconstruct_matrix
    rw [if_neg (by norm_num : ¬ (3 : ℕ) < 2), hseries]
    simp

end KPCAReconError

namespace KPCAReconError

/-- C10: a single-column input (d = 1) always fails: the sanity check of
`reconstruct_matrix` draws two distinct indices without replacement from a
population of one, so `np.random.choice` raises, and with it the score
and predict pipelines, for every draw, spectrum and configuration. -/
theorem C10_single_column_always_fails (raw : Mat) (lambdas : List ℝ)
    (recon : ℕ → Mat) (draw : ℕ × ℕ) (perm : List ℕ) (c : ℝ)
    (h : numCols raw = 1) :
    (∃ e, reconstruct_matrix recon (numCols (standardize raw)) draw = .error e) ∧
    (∃ e, score_pipeline raw lambdas recon draw = .error e) ∧
    (∃ e, predict_pipeline raw lambdas recon draw perm c = .error e) := by
  have h1 : numCols (standardize raw) = 1 := by rw [numCols_standardize, h]
  have hrec : reconstruct_matrix recon (numCols (standardize raw)) draw =
      .error "ValueError: Cannot take a larger sample than population" := by
    unfold reconstruct_matrix
    rw [h1, if_pos (by norm_num)]
  have hscore : score_pipeline raw lambdas recon draw =
      .error "ValueError: Cannot take a larger sample than population" := by
    unfold score_pipeline get_anomaly_score
    rw [hrec]
  have hpred : predict_pipeline raw lambdas recon draw perm c =
      .error "ValueError: Cannot take a larger sample than population" := by
    unfold predict_pipeline predict
    rw [show get_anomaly_score (standardize raw) lambdas recon draw =
      .error "ValueError: Cannot take a larger sample than population" from hscore]
  exact ⟨⟨_, hrec⟩, ⟨_, hscore⟩, ⟨_, hpred⟩⟩

/-- Witness for C10 at the one-column matrix `[[5]]`. -/
theorem C10_single_column_always_fails_witness :
    (∃ e, reconstruct_matrix (fun _ => []) (numCols (standardize [[5]])) (0, 0) =
      .error e) ∧
    (∃ e, score_pipeline [[5]] [] (fun _ => []) (0, 0) = .error e) ∧
    (∃ e, predict_pipeline [[5]] [] (fun _ => []) (0, 0) [] 0 = .error e) :=
  C10_single_column_always_fails [[5]] [] (fun _ => []) (0, 0) [] 0 rfl

/-- C6 (amended): a zero-variance column does not make the preprocessing
fail; sklearn `StandardScaler` replaces the zero scale by 1, so the
standardized matrix is produced (same number of rows) and the degenerate
column is centered to all zeros. -/
theorem C6_zero_variance_column (X : Mat) (j : ℕ) (hvar : colVar X j = 0) :
    (standardize X).length = X.length ∧
    ∀ r ∈ standardize X, r.getD j 0 = 0 := by
  refine ⟨length_standardize X, ?_⟩
  intro r hr
  simp only [standardize, List.mem_map] at hr
  obtain ⟨row, hrow, rfl⟩ := hr
  by_cases hj : j < row.length
  · have hlen : j < ((List.range row.length).map
        (fun j => (row.getD j 0 - colMean X j) / colScale X j)).length := by
      simpa using hj
    rw [List.getD_eq_getElem _ _ hlen]
    simp only [List.getElem_map, List.getElem_range]
    have hX : (X.length : ℝ) ≠ 0 := by
      have : X ≠ [] := by
        intro h0
        rw [h0] at hrow
        exact absurd hrow (List.not_mem_nil row)
      have hpos : 0 < X.length := List.length_pos.mpr this
      exact_mod_cast Nat.pos_iff_ne_zero.mp hpos
    have hsum0 : (X.map (fun r => (r.getD j 0 - colMean X j) ^ 2)).sum = 0 := by
      unfold colVar at hvar
      rcases div_eq_zero_iff.mp hvar with hnum | hden
      · exact hnum
      · exact absurd hden hX
    have hterm : (row.getD j 0 - colMean X j) ^ 2 = 0 := by
      have hmem : (row.getD j 0 - colMean X j) ^ 2 ∈
          X.map (fun r => (r.getD j 0 - colMean X j) ^ 2) :=
        List.mem_map_of_mem _ hrow
      have hnn : ∀ y ∈ X.map (fun r => (r.getD j 0 - colMean X j) ^ 2), 0 ≤ y := by
        intro y hy
        obtain ⟨s, _, rfl⟩ := List.mem_map.mp hy
        exact sq_nonneg _
      have hle := List.single_le_sum hnn _ hmem
      rw [hsum0] at hle
      exact le_antisymm hle (sq_nonneg _)
    have hzero : row.getD j 0 - colMean X j = 0 := by
      exact pow_eq_zero_iff (by norm_num) |>.mp hterm
    rw [hzero, zero_div]
  · rw [List.getD_eq_default]
    simpa using hj

/-- Witness for the amended C6 theorem at a concrete matrix whose first
column has zero variance. -/
theorem C6_zero_variance_column_witness :
    (standardize [[1, 2], [1, 4]]).length = ([[1, 2], [1, 4]] : Mat).length ∧
    ∀ r ∈ standardize [[1, 2], [1, 4]], r.getD 0 0 = 0 :=
  C6_zero_variance_column [[1, 2], [1, 4]] 0
    (by norm_num [colVar, colMean])

end KPCAReconError

namespace KPCAReconError

/-- Counterexample to C6 as stated: the matrix `[[1,2],[1,4]]` has a
zero-variance first column, yet preprocessing succeeds and returns the
standardized matrix `[[0,-1],[0,1]]` instead of failing. -/
theorem C6_counterexample :
    colVar [[1, 2], [1, 4]] 0 = 0 ∧
    standardize [[1, 2], [1, 4]] = [[0, -1], [0, 1]] := by
  have hm0 : colMean [[1, 2], [1, 4]] 0 = 1 := by norm_num [colMean]
  have hm1 : colMean [[1, 2], [1, 4]] 1 = 3 := by norm_num [colMean]
  have hv0 : colVar [[1, 2], [1, 4]] 0 = 0 := by norm_num [colVar, hm0]
  have hv1 : colVar [[1, 2], [1, 4]] 1 = 1 := by norm_num [colVar, hm1]
  have hs0 : colScale [[1, 2], [1, 4]] 0 = 1 := by
    rw [colScale, colStd, hv0, Real.sqrt_zero, if_pos rfl]
  have hs1 : colScale [[1, 2], [1, 4]] 1 = 1 := by
    rw [colScale, colStd, hv1, Real.sqrt_one, if_neg (by norm_num)]
  refine ⟨hv0, ?_⟩
  norm_num [standardize, List.range_succ, hm0, hm1, hs0, hs1]

lemma standardize_exRaw : standardize exRaw = [[-1, -1], [1, 1]] := by
  have hm0 : colMean [[0, 0], [2, 2]] 0 = 1 := by norm_num [colMean]
  have hm1 : colMean [[0, 0], [2, 2]] 1 = 1 := by norm_num [colMean]
  have hv0 : colVar [[0, 0], [2, 2]] 0 = 1 := by norm_num [colVar, hm0]
  have hv1 : colVar [[0, 0], [2, 2]] 1 = 1 := by norm_num [colVar, hm1]
  have hs0 : colScale [[0, 0], [2, 2]] 0 = 1 := by
    rw [colScale, colStd, hv0, Real.sqrt_one, if_neg (by norm_num)]
  have hs1 : colScale [[0, 0], [2, 2]] 1 = 1 := by
    rw [colScale, colStd, hv1, Real.sqrt_one, if_neg (by norm_num)]
  simp only [exRaw]
  norm_num [standardize, List.range_succ, hm0, hm1, hs0, hs1]

lemma ev_ratio_exLam : get_ev_ratio exLam = [1 / 2, 1] := by
  simp only [exLam]
  norm_num [get_ev_ratio, List.range_succ]

lemma reconSeries_ex :
    reconSeries exRecon 2 = [[[0, -1], [1, 1]], [[-1, -1], [1, 1]]] := by
  norm_num [reconSeries, exRecon, List.range_succ]

lemma reconstruct_ex01 :
    reconstruct_matrix exRecon 2 (0, 1) =
      .ok [[[0, -1], [1, 1]], [[-1, -1], [1, 1]]] := by
  unfold reconstruct_matrix
  rw [if_neg (by norm_num : ¬ (2 : ℕ) < 2), reconSeries_ex,
    if_neg (by norm_num [List.getD_cons_zero, List.getD_cons_succ])]

lemma reconstruct_ex10 :
    reconstruct_matrix exRecon 2 (1, 0) =
      .ok [[[0, -1], [1, 1]], [[-1, -1], [1, 1]]] := by
  unfold reconstruct_matrix
  rw [if_neg (by norm_num : ¬ (2 : ℕ) < 2), reconSeries_ex,
    if_neg (by norm_num [List.getD_cons_zero, List.getD_cons_succ])]

end KPCAReconError

namespace KPCAReconError

lemma get_anomaly_score_ok {X : Mat} {lambdas : List ℝ} {recon : ℕ → Mat}
    {draw : ℕ × ℕ} {ms : List Mat}
    (h : reconstruct_matrix recon (numCols X) draw = .ok ms) :
    get_anomaly_score X lambdas recon draw =
      .ok (sumVecs (List.zipWith (fun m ev => compute_sub_score X m ev)
        ms (get_ev_ratio lambdas))) := by
  unfold get_anomaly_score
  rw [h]

lemma get_anomaly_score_ok_inv {X : Mat} {lambdas : List ℝ} {recon : ℕ → Mat}
    {draw : ℕ × ℕ} {scores : List ℝ}
    (h : get_anomaly_score X lambdas recon draw = .ok scores) :
    scores = sumVecs (List.zipWith (fun m ev => compute_sub_score X m ev)
      (reconSeries recon (numCols X)) (get_ev_ratio lambdas)) ∧
    2 ≤ numCols X := by
  unfold get_anomaly_score at h
  cases hr : reconstruct_matrix recon (numCols X) draw with
  | error e =>
      rw [hr] at h
      exact absurd h (by simp)
  | ok ms =>
      rw [hr] at h
      obtain ⟨hms, hd⟩ := reconstruct_matrix_ok hr
      subst hms
      exact ⟨(Except.ok.inj h).symm, hd⟩

lemma predict_ok {X : Mat} {lambdas : List ℝ} {recon : ℕ → Mat}
    {draw : ℕ × ℕ} {s : List ℝ} (perm : List ℕ) (c : ℝ)
    (h : get_anomaly_score X lambdas recon draw = .ok s) :
    predict X lambdas recon draw perm c =
      .ok (predict_labels X.length (get_anomaly_indices perm X.length c)) := by
  unfold predict
  rw [h]

lemma predict_ok_inv {X : Mat} {lambdas : List ℝ} {recon : ℕ → Mat}
    {draw : ℕ × ℕ} {perm : List ℕ} {c : ℝ} {labels : List ℕ}
    (h : predict X lambdas recon draw perm c = .ok labels) :
    labels = predict_labels X.length (get_anomaly_indices perm X.length c) ∧
    ∃ s, get_anomaly_score X lambdas recon draw = .ok s := by
  unfold predict at h
  cases hs : get_anomaly_score X lambdas recon draw with
  | error e =>
      rw [hs] at h
      exact absurd h (by simp)
  | ok s =>
      rw [hs] at h
      exact ⟨(Except.ok.inj h).symm, ⟨s, rfl⟩⟩

lemma score_ex01 : score_pipeline exRaw exLam exRecon (0, 1) = .ok [1 / 2, 0] := by
  unfold score_pipeline
  rw [standardize_exRaw]
  rw [get_anomaly_score_ok
    (show reconstruct_matrix exRecon (numCols ([[-1, -1], [1, 1]] : Mat)) (0, 1) =
      .ok [[[0, -1], [1, 1]], [[-1, -1], [1, 1]]] from reconstruct_ex01)]
  rw [ev_ratio_exLam]
  norm_num [compute_sub_score, compute_vector_length, sumVecs,
    List.zipWith_cons_cons, Real.sqrt_one, Real.sqrt_zero]

lemma score_ex10 : score_pipeline exRaw exLam exRecon (1, 0) = .ok [1 / 2, 0] := by
  unfold score_pipeline
  rw [standardize_exRaw]
  rw [get_anomaly_score_ok
    (show reconstruct_matrix exRecon (numCols ([[-1, -1], [1, 1]] : Mat)) (1, 0) =
      .ok [[[0, -1], [1, 1]], [[-1, -1], [1, 1]]] from reconstruct_ex10)]
  rw [ev_ratio_exLam]
  norm_num [compute_sub_score, compute_vector_length, sumVecs,
    List.zipWith_cons_cons, Real.sqrt_one, Real.sqrt_zero]

end KPCAReconError

namespace KPCAReconError

lemma predict_ex01 :
    predict_pipeline exRaw exLam exRecon (0, 1) [0, 1] (1 / 2) = .ok [1, 0] := by
  unfold predict_pipeline
  rw [predict_ok [0, 1] (1 / 2)
    (show get_anomaly_score (standardize exRaw) exLam exRecon (0, 1) =
      .ok [1 / 2, 0] from score_ex01)]
  have hlen : (standardize exRaw).length = 2 := by
    rw [standardize_exRaw]
    rfl
  rw [hlen]
  norm_num [get_anomaly_indices, pySlice, predict_labels, List.range_succ]

lemma predict_ex10 :
    predict_pipeline exRaw exLam exRecon (1, 0) [0, 1] (1 / 2) = .ok [1, 0] := by
  unfold predict_pipeline
  rw [predict_ok [0, 1] (1 / 2)
    (show get_anomaly_score (standardize exRaw) exLam exRecon (1, 0) =
      .ok [1 / 2, 0] from score_ex10)]
  have hlen : (standardize exRaw).length = 2 := by
    rw [standardize_exRaw]
    rfl
  rw [hlen]
  norm_num [get_anomaly_indices, pySlice, predict_labels, List.range_succ]

/-- C7 (amended): the code performs no validation of `contamination`
anywhere: for every contamination value `c`, in range or not, the anomaly
ranking totally returns a length-n vector of 0/1 labels and never raises
`InvalidParameterError` (no such check exists in the source). -/
theorem C7_no_contamination_validation (n : ℕ) (perm : List ℕ) (c : ℝ) :
    (predict_labels n (get_anomaly_indices perm n c)).length = n ∧
    ∀ x ∈ predict_labels n (get_anomaly_indices perm n c), x = 0 ∨ x = 1 := by
  constructor
  · simp [predict_labels]
  · intro x hx
    simp only [predict_labels, List.mem_map] at hx
    obtain ⟨i, _, rfl⟩ := hx
    by_cases h : i ∈ get_anomaly_indices perm n c <;> simp [h]

/-- Counterexample to C7 as stated: at the out-of-range contamination
`c = 3/5 > 1/2` the pipeline raises nothing and returns a label vector. -/
theorem C7_counterexample :
    ¬ ((3 / 5 : ℝ) ≤ 1 / 2) ∧
    predict_pipeline exRaw exLam exRecon (0, 1) [0, 1] (3 / 5) = .ok [1, 1] := by
  refine ⟨by norm_num, ?_⟩
  unfold predict_pipeline
  rw [predict_ok [0, 1] (3 / 5)
    (show get_anomaly_score (standardize exRaw) exLam exRecon (0, 1) =
      .ok [1 / 2, 0] from score_ex01)]
  have hlen : (standardize exRaw).length = 2 := by
    rw [standardize_exRaw]
    rfl
  rw [hlen]
  have hc : (⌈(6 / 5 : ℝ)⌉ : ℤ) = 2 := by
    rw [Int.ceil_eq_iff]
    norm_num
  norm_num [get_anomaly_indices, pySlice, predict_labels, List.range_succ, hc]
  decide

end KPCAReconError

namespace KPCAReconError

lemma of_mem_zipWith {α β γ : Type} {f : α → β → γ} :
    ∀ {l₁ : List α} {l₂ : List β} {c : γ}, c ∈ List.zipWith f l₁ l₂ →
      ∃ a ∈ l₁, ∃ b ∈ l₂, c = f a b := by
  intro l₁
  induction l₁ with
  | nil =>
    intro l₂ c hc
    simp at hc
  | cons a l ih =>
    intro l₂ c hc
    cases l₂ with
    | nil => simp at hc
    | cons b l₂ =>
      rcases List.mem_cons.mp hc with h | h
      · exact ⟨a, (List.mem_cons_self _ _), b, (List.mem_cons_self _ _), h⟩
      · obtain ⟨x, hx, y, hy, hc2⟩ := ih h
        exact ⟨x, List.mem_cons_of_mem _ hx, y, List.mem_cons_of_mem _ hy, hc2⟩

lemma length_compute_sub_score (X m : Mat) (ev : ℝ) :
    (compute_sub_score X m ev).length = min X.length m.length := by
  simp [compute_sub_score, List.length_zipWith]

lemma reconSeries_getElem (recon : ℕ → Mat) (d : ℕ) {k : ℕ}
    (hk : k < (reconSeries recon d).length) :
    (reconSeries recon d)[k] = recon (k + 1) := by
  simp [reconSeries]

lemma get_ev_ratio_getElem (lambdas : List ℝ) {k : ℕ}
    (hk : k < (get_ev_ratio lambdas).length) :
    (get_ev_ratio lambdas)[k] = (lambdas.take (k + 1)).sum / lambdas.sum := by
  simp [get_ev_ratio]

lemma compute_sub_score_getD (X m : Mat) (ev : ℝ) {i : ℕ}
    (hiX : i < X.length) (him : i < m.length) :
    (compute_sub_score X m ev).getD i 0 =
      compute_vector_length (List.zipWith (fun a b => a - b)
        (X.getD i []) (m.getD i [])) * ev := by
  have hlen : i < (compute_sub_score X m ev).length := by
    rw [length_compute_sub_score]
    omega
  rw [List.getD_eq_getElem _ _ hlen]
  simp only [compute_sub_score, List.getElem_map, List.getElem_zipWith]
  rw [List.getD_eq_getElem _ _ hiX, List.getD_eq_getElem _ _ him]

lemma compute_sub_score_nonneg (X m : Mat) (ev : ℝ) (hev : 0 ≤ ev) :
    ∀ x ∈ compute_sub_score X m ev, 0 ≤ x := by
  intro x hx
  simp only [compute_sub_score, List.mem_map] at hx
  obtain ⟨t, ht, rfl⟩ := hx
  obtain ⟨idx, hidx, hts⟩ := List.mem_iff_getElem.mp ht
  have h0t : 0 ≤ t := by
    rw [← hts]
    simp only [List.getElem_zipWith]
    exact Real.sqrt_nonneg _
  exact mul_nonneg h0t hev

lemma vs_length_facts (X : Mat) (lambdas : List ℝ) (recon : ℕ → Mat) (d : ℕ)
    (hlam : lambdas.length = d)
    (hshape : ∀ k, (recon k).length = X.length) :
    (List.zipWith (fun m ev => compute_sub_score X m ev)
      (reconSeries recon d) (get_ev_ratio lambdas)).length = d ∧
    ∀ v ∈ List.zipWith (fun m ev => compute_sub_score X m ev)
      (reconSeries recon d) (get_ev_ratio lambdas), v.length = X.length := by
  constructor
  · rw [List.length_zipWith, length_reconSeries, length_get_ev_ratio, hlam, min_self]
  · intro v hv
    obtain ⟨idx, hidx, heq⟩ := List.mem_iff_getElem.mp hv
    rw [← heq]
    simp only [List.getElem_zipWith]
    rw [length_compute_sub_score, reconSeries_getElem, hshape, min_self]

lemma sub_score_list_facts (X : Mat) (lambdas : List ℝ) (recon : ℕ → Mat)
    (d : ℕ) (hlam : lambdas.length = d) (hd1 : 1 ≤ d)
    (hnn : ∀ x ∈ lambdas, 0 ≤ x)
    (hshape : ∀ k, (recon k).length = X.length) :
    (sumVecs (List.zipWith (fun m ev => compute_sub_score X m ev)
      (reconSeries recon d) (get_ev_ratio lambdas))).length = X.length ∧
    ∀ x ∈ sumVecs (List.zipWith (fun m ev => compute_sub_score X m ev)
      (reconSeries recon d) (get_ev_ratio lambdas)), 0 ≤ x := by
  obtain ⟨hvslen, hveach⟩ := vs_length_facts X lambdas recon d hlam hshape
  have hne : List.zipWith (fun m ev => compute_sub_score X m ev)
      (reconSeries recon d) (get_ev_ratio lambdas) ≠ [] := by
    intro h0
    rw [h0] at hvslen
    simp at hvslen
    omega
  refine ⟨sumVecs_length _ hne hveach, ?_⟩
  apply sumVecs_nonneg
  intro v hv
  obtain ⟨m, -, ev, hev, rfl⟩ := of_mem_zipWith hv
  apply compute_sub_score_nonneg
  obtain ⟨k, -, hkeq⟩ := mem_get_ev_ratio lambdas hev
  rw [hkeq]
  exact div_nonneg
    (List.sum_nonneg fun x hx => hnn x (List.mem_of_mem_take hx))
    (List.sum_nonneg hnn)

/-- C8: for a fixed input matrix and configuration, any two invocations of
predict that return (possibly with different internal random draws for the
sanity check, the only nondeterminism in the pipeline) return identical
label vectors. -/
theorem C8_predict_deterministic (raw : Mat) (lambdas : List ℝ)
    (recon : ℕ → Mat) (d1 d2 : ℕ × ℕ) (perm : List ℕ) (c : ℝ)
    (l1 l2 : List ℕ)
    (h1 : predict_pipeline raw lambdas recon d1 perm c = .ok l1)
    (h2 : predict_pipeline raw lambdas recon d2 perm c = .ok l2) :
    l1 = l2 := by
  unfold predict_pipeline at h1 h2
  obtain ⟨e1, -⟩ := predict_ok_inv h1
  obtain ⟨e2, -⟩ := predict_ok_inv h2
  rw [e1, e2]

/-- Witness for C8: the two draws (0,1) and (1,0) both succeed on the
concrete pipeline and give the same labels. -/
theorem C8_predict_deterministic_witness : ([1, 0] : List ℕ) = [1, 0] :=
  C8_predict_deterministic exRaw exLam exRecon (0, 1) (1, 0) [0, 1] (1 / 2)
    [1, 0] [1, 0] predict_ex01 predict_ex10

/-- C9: whenever the score pipeline returns, the anomaly score vector has
one entry per input row and every entry is nonnegative (given the
collaborator contract: d eigenvalues, nonnegative, and reconstruction
matrices with one row per input row, which the source asserts on line 57). -/
theorem C9_score_length_nonneg (raw : Mat) (lambdas : List ℝ)
    (recon : ℕ → Mat) (draw : ℕ × ℕ) (scores : List ℝ)
    (hlam : lambdas.length = numCols raw)
    (hnn : ∀ x ∈ lambdas, 0 ≤ x)
    (hshape : ∀ k, (recon k).length = raw.length)
    (hok : score_pipeline raw lambdas recon draw = .ok scores) :
    scores.length = raw.length ∧ ∀ x ∈ scores, 0 ≤ x := by
  unfold score_pipeline at hok
  obtain ⟨hsc, hd2⟩ := get_anomaly_score_ok_inv hok
  rw [numCols_standardize] at hsc hd2
  have hshape' : ∀ k, (recon k).length = (standardize raw).length := by
    intro k
    rw [hshape, length_standardize]
  have hfacts := sub_score_list_facts (standardize raw) lambdas recon
    (numCols raw) hlam (by omega) hnn hshape'
  rw [← hsc, length_standardize] at hfacts
  exact hfacts

/-- Witness for C9 on the concrete pipeline. -/
theorem C9_score_length_nonneg_witness :
    ([1 / 2, 0] : List ℝ).length = exRaw.length ∧
    ∀ x ∈ ([1 / 2, 0] : List ℝ), 0 ≤ x :=
  C9_score_length_nonneg exRaw exLam exRecon (0, 1) [1 / 2, 0]
    rfl
    (by intro x hx; simp [exLam] at hx; rcases hx with rfl | rfl <;> norm_num)
    (by intro k; by_cases hk : k = 1 <;> simp [exRecon, exRaw, hk])
    score_ex01

end KPCAReconError

namespace KPCAReconError

lemma count_one_predict_labels (n : ℕ) (A : List ℕ) (hA : A.Nodup)
    (hlt : ∀ a ∈ A, a < n) :
    (predict_labels n A).count 1 = A.length := by
  unfold predict_labels
  rw [List.count_eq_countP, List.countP_map]
  have hcongr : List.countP ((fun x => x == 1) ∘ fun i => if i ∈ A then 1 else 0)
      (List.range n) = List.countP (fun i => decide (i ∈ A)) (List.range n) := by
    apply List.countP_congr
    intro a _
    by_cases h : a ∈ A <;> simp [h]
  rw [hcongr, List.countP_eq_length_filter]
  have hperm : List.Perm ((List.range n).filter (fun i => decide (i ∈ A))) A := by
    apply (List.perm_ext_iff_of_nodup ((List.nodup_range n).filter _) hA).mpr
    intro a
    simp only [List.mem_filter, List.mem_range, decide_eq_true_eq]
    constructor
    · rintro ⟨-, h⟩
      exact h
    · intro h
      exact ⟨hlt a h, h⟩
  exact hperm.length_eq

/-- C3: whenever predict returns, the label vector has one entry per input
row, every entry is 0 or 1, the number of 1-entries is exactly
the ceiling of n times the contamination, and contamination 0 gives the
all-zero vector (for any argsort permutation of the row indices). -/
theorem C3_predict_count (raw : Mat) (lambdas : List ℝ) (recon : ℕ → Mat)
    (draw : ℕ × ℕ) (perm : List ℕ) (c : ℝ) (labels : List ℕ)
    (hperm : List.Perm perm (List.range raw.length))
    (hc0 : 0 ≤ c) (hc1 : c ≤ 1 / 2)
    (hok : predict_pipeline raw lambdas recon draw perm c = .ok labels) :
    labels.length = raw.length ∧
    (∀ x ∈ labels, x = 0 ∨ x = 1) ∧
    (labels.count 1 : ℤ) = ⌈(raw.length : ℝ) * c⌉ ∧
    (c = 0 → ∀ x ∈ labels, x = 0) := by
  unfold predict_pipeline at hok
  obtain ⟨hlab, -⟩ := predict_ok_inv hok
  rw [length_standardize] at hlab
  have hk0 : (0 : ℤ) ≤ ⌈(raw.length : ℝ) * c⌉ := Int.ceil_nonneg (by positivity)
  have hA : get_anomaly_indices perm raw.length c =
      perm.take (⌈(raw.length : ℝ) * c⌉).toNat := by
    unfold get_anomaly_indices pySlice
    rw [if_neg (by omega : ¬ ⌈(raw.length : ℝ) * c⌉ < 0)]
  have hpermlen : perm.length = raw.length := by
    rw [hperm.length_eq, List.length_range]
  have hnodup : (perm.take (⌈(raw.length : ℝ) * c⌉).toNat).Nodup :=
    (hperm.nodup_iff.mpr (List.nodup_range raw.length)).sublist
      (List.take_sublist _ _)
  have hmemlt : ∀ a ∈ perm.take (⌈(raw.length : ℝ) * c⌉).toNat, a < raw.length := by
    intro a ha
    have h1 : a ∈ perm := List.mem_of_mem_take ha
    have h2 : a ∈ List.range raw.length := hperm.mem_iff.mp h1
    exact List.mem_range.mp h2
  have hcount : (predict_labels raw.length
      (get_anomaly_indices perm raw.length c)).count 1 =
      (⌈(raw.length : ℝ) * c⌉).toNat := by
    rw [hA, count_one_predict_labels raw.length _ hnodup hmemlt,
      List.length_take, hpermlen]
    have hle : (⌈(raw.length : ℝ) * c⌉ : ℤ) ≤ raw.length := by
      have h1 : (raw.length : ℝ) * c ≤ raw.length := by
        nlinarith [show (0 : ℝ) ≤ (raw.length : ℝ) from Nat.cast_nonneg raw.length]
      calc (⌈(raw.length : ℝ) * c⌉ : ℤ) ≤ ⌈(raw.length : ℝ)⌉ := Int.ceil_mono h1
        _ = raw.length := Int.ceil_natCast raw.length
    exact min_eq_left (Int.toNat_le.mpr hle)
  subst hlab
  refine ⟨by simp [predict_labels], ?_, ?_, ?_⟩
  · intro x hx
    simp only [predict_labels, List.mem_map] at hx
    obtain ⟨j, -, rfl⟩ := hx
    by_cases h : j ∈ get_anomaly_indices perm raw.length c <;> simp [h]
  · rw [hcount, Int.toNat_of_nonneg hk0]
  · intro hc
    subst hc
    intro x hx
    simp only [predict_labels, List.mem_map] at hx
    obtain ⟨j, -, rfl⟩ := hx
    have hempty : get_anomaly_indices perm raw.length 0 = [] := by
      rw [hA]
      norm_num
    rw [hempty]
    simp

/-- Witness for C3 on the concrete pipeline with contamination 1/2. -/
theorem C3_predict_count_witness :
    ([1, 0] : List ℕ).length = exRaw.length ∧
    (∀ x ∈ ([1, 0] : List ℕ), x = 0 ∨ x = 1) ∧
    (([1, 0] : List ℕ).count 1 : ℤ) = ⌈(exRaw.length : ℝ) * (1 / 2)⌉ ∧
    ((1 / 2 : ℝ) = 0 → ∀ x ∈ ([1, 0] : List ℕ), x = 0) :=
  C3_predict_count exRaw exLam exRecon (0, 1) [0, 1] (1 / 2) [1, 0]
    (by decide) (by norm_num) (by norm_num) predict_ex01

end KPCAReconError

namespace KPCAReconError

/-- C1: whenever the score pipeline returns, the anomaly score of row i is
exactly the sum, over the d column counts k = 1..d, of the cumulative
variance ratio at rank k times the Euclidean norm of (standardized row i
minus row i of the rank-k reconstruction): one weighted residual norm per
reconstruction matrix (given the collaborator contract: d eigenvalues and
reconstructions with one row per input row, asserted on line 57). -/
theorem C1_score_formula (raw : Mat) (lambdas : List ℝ) (recon : ℕ → Mat)
    (draw : ℕ × ℕ) (scores : List ℝ) (i : ℕ)
    (hlam : lambdas.length = numCols raw)
    (hshape : ∀ k, (recon k).length = raw.length)
    (hok : score_pipeline raw lambdas recon draw = .ok scores)
    (hi : i < raw.length) :
    scores.getD i 0 =
      ((List.range (numCols raw)).map (fun k =>
        ((lambdas.take (k + 1)).sum / lambdas.sum) *
          compute_vector_length (List.zipWith (fun a b => a - b)
            ((standardize raw).getD i []) ((recon (k + 1)).getD i [])))).sum := by
  unfold score_pipeline at hok
  obtain ⟨hsc, hd2⟩ := get_anomaly_score_ok_inv hok
  rw [numCols_standardize] at hsc hd2
  have hXlen : (standardize raw).length = raw.length := length_standardize raw
  have hshape' : ∀ k, (recon k).length = (standardize raw).length := by
    intro k
    rw [hshape, length_standardize]
  obtain ⟨hvslen, hveach⟩ := vs_length_facts (standardize raw) lambdas recon
    (numCols raw) hlam hshape'
  have hveach' : ∀ v ∈ List.zipWith
      (fun m ev => compute_sub_score (standardize raw) m ev)
      (reconSeries recon (numCols raw)) (get_ev_ratio lambdas),
      v.length = raw.length := by
    intro v hv
    rw [hveach v hv, hXlen]
  have hne : List.zipWith (fun m ev => compute_sub_score (standardize raw) m ev)
      (reconSeries recon (numCols raw)) (get_ev_ratio lambdas) ≠ [] := by
    intro h0
    rw [h0] at hvslen
    simp at hvslen
    omega
  rw [hsc, sumVecs_getD hi _ hne hveach']
  congr 1
  apply List.ext_getElem
  · rw [List.length_map, hvslen, List.length_map, List.length_range]
  · intro k hk1 hk2
    have hkd : k < numCols raw := by
      rw [List.length_map, hvslen] at hk1
      exact hk1
    simp only [List.getElem_map, List.getElem_zipWith, List.getElem_range]
    rw [reconSeries_getElem]
    rw [compute_sub_score_getD _ _ _ (by rw [hXlen]; exact hi)
      (by rw [hshape]; exact hi)]
    rw [get_ev_ratio_getElem, mul_comm]

/-- Witness for C1 on the concrete pipeline, at row 0. -/
theorem C1_score_formula_witness :
    ([1 / 2, 0] : List ℝ).getD 0 0 =
      ((List.range (numCols exRaw)).map (fun k =>
        ((exLam.take (k + 1)).sum / exLam.sum) *
          compute_vector_length (List.zipWith (fun a b => a - b)
            ((standardize exRaw).getD 0 []) ((exRecon (k + 1)).getD 0 [])))).sum :=
  C1_score_formula exRaw exLam exRecon (0, 1) [1 / 2, 0] 0
    rfl
    (by intro k; by_cases hk : k = 1 <;> simp [exRecon, exRaw, hk])
    score_ex01
    (by norm_num [exRaw])

end KPCAReconError
